import Mathlib

/-!
Shallow embedding of `be/src/common/object_pool.h` (class `doris::ObjectPool`).

The pool stores a `std::list<Element>` where `Element = {void* obj; DeleteFn delete_fn}`.
We model an object pointer as a `Nat` handle and the type-erased deletion function by
the kind of deletion it performs (`delete` vs `delete[]`), which is the only observable
distinction between the lambdas the source captures at registration time.

Mutating member functions are modelled as value-passing functions that return the new
pool state together with the list of destruction events performed (each event is the
`Element` whose `delete_fn` was invoked on its `obj`, in invocation order).
-/

namespace DorisObjectPool

/-- The two deletion lambdas the source registers:
`delete reinterpret_cast<T*>(obj)` (scalar) and `delete[] reinterpret_cast<T*>(obj)` (array). -/
inductive DeleteKind where
  | scalar : DeleteKind
  | array : DeleteKind
  deriving DecidableEq, Repr

/-- `struct Element { void* obj; DeleteFn delete_fn; }`. -/
structure Element where
  obj : Nat
  delete_fn : DeleteKind
  deriving DecidableEq, Repr

/-- `class ObjectPool { std::list<Element> _objects; ... }` (the spin lock is a
concurrency artifact with no sequential semantics, so it is not part of the state). -/
structure ObjectPool where
  objects : List Element
  deriving DecidableEq, Repr

/-- A default-constructed pool: `ObjectPool() = default;` leaves `_objects` empty. -/
def ObjectPool.empty : ObjectPool := ⟨[]⟩

/-- `template <class T> T* add(T* t)`: appends `Element{t, scalar delete lambda}`
to `_objects` and returns `t`. -/
def ObjectPool.add (p : ObjectPool) (t : Nat) : ObjectPool × Nat :=
  (⟨p.objects ++ [⟨t, DeleteKind.scalar⟩]⟩, t)

/-- `template <class T> T* add_array(T* t)`: appends `Element{t, array delete lambda}`
to `_objects` and returns `t`. -/
def ObjectPool.add_array (p : ObjectPool) (t : Nat) : ObjectPool × Nat :=
  (⟨p.objects ++ [⟨t, DeleteKind.array⟩]⟩, t)

/-- `void clear()`: `for (Element& elem : _objects) elem.delete_fn(elem.obj);` walks the
list front to back invoking each element's deleter, then `_objects.clear()`.
Returned events are the elements destroyed, in invocation order. -/
def ObjectPool.clear (p : ObjectPool) : ObjectPool × List Element :=
  (⟨[]⟩, p.objects)

/-- `void remove_last_one()`: if `_objects` is non-empty, invokes `back()`'s deleter on
`back()`'s pointer and `pop_back()`s it; otherwise does nothing. -/
def ObjectPool.remove_last_one (p : ObjectPool) : ObjectPool × List Element :=
  match p.objects.getLast? with
  | none => (p, [])
  | some e => (⟨p.objects.dropLast⟩, [e])

/-- `void acquire_data(ObjectPool* src)`:
`_objects.insert(_objects.end(), src->_objects.begin(), src->_objects.end());`
`src->_objects.clear();` — appends `src`'s elements after this pool's elements and
empties `src`. No `delete_fn` is invoked anywhere in the body, so the event list
(third component) is empty. Result is `(new this, new src, events)`. -/
def ObjectPool.acquire_data (dst src : ObjectPool) : ObjectPool × ObjectPool × List Element :=
  (⟨dst.objects ++ src.objects⟩, ⟨[]⟩, [])

/-- `~ObjectPool() { clear(); }`: destroying the pool runs `clear`. -/
def ObjectPool.destruct (p : ObjectPool) : ObjectPool × List Element :=
  p.clear

/-! ## Trace semantics

To state the compound claims ("any sequence of registrations followed by clear", the
once-destroyed-never-again invariant) we run lists of operations against a pool.
`Op.acquire_from xs` is this pool acting as the destination of `acquire_data` with a
source pool whose contents are `xs`; `Op.surrender` is this pool acting as the source
(its elements move to some other pool: no event, pool left empty). -/

inductive Op where
  | add : Nat → Op
  | add_array : Nat → Op
  | clear : Op
  | remove_last_one : Op
  | acquire_from : List Element → Op
  | surrender : Op
  deriving DecidableEq, Repr

/-- Elements that an operation newly brings under this pool's ownership. -/
def registersOf : Op → List Element
  | Op.add t => [⟨t, DeleteKind.scalar⟩]
  | Op.add_array t => [⟨t, DeleteKind.array⟩]
  | Op.acquire_from xs => xs
  | _ => []

/-- One operation applied to a pool: new pool state and destruction events performed. -/
def step (p : ObjectPool) : Op → ObjectPool × List Element
  | Op.add t => ((p.add t).1, [])
  | Op.add_array t => ((p.add_array t).1, [])
  | Op.clear => p.clear
  | Op.remove_last_one => p.remove_last_one
  | Op.acquire_from xs => ((p.acquire_data ⟨xs⟩).1, (p.acquire_data ⟨xs⟩).2.2)
  | Op.surrender => (⟨[]⟩, [])

/-- Run a sequence of operations; events of all steps are concatenated in order. -/
def runTrace (p : ObjectPool) : List Op → ObjectPool × List Element
  | [] => (p, [])
  | op :: ops =>
    let s := step p op
    let r := runTrace s.1 ops
    (r.1, s.2 ++ r.2)

/-- A registration request: pointer together with which form (`add` vs `add_array`). -/
def regOp : Nat × DeleteKind → Op
  | (t, DeleteKind.scalar) => Op.add t
  | (t, DeleteKind.array) => Op.add_array t

/-- The `Element` a registration request stores. -/
def regEntry : Nat × DeleteKind → Element
  | (t, k) => ⟨t, k⟩

/-! ## Basic lemmas -/

theorem runTrace_append (p : ObjectPool) (l1 l2 : List Op) :
    runTrace p (l1 ++ l2) =
      ((runTrace (runTrace p l1).1 l2).1,
        (runTrace p l1).2 ++ (runTrace (runTrace p l1).1 l2).2) := by
  induction l1 generalizing p with
  | nil => simp [runTrace]
  | cons op ops ih => simp [runTrace, ih, List.append_assoc]

theorem runTrace_regOps (regs : List (Nat × DeleteKind)) (p : ObjectPool) :
    runTrace p (regs.map regOp) = (⟨p.objects ++ regs.map regEntry⟩, []) := by
  induction regs generalizing p with
  | nil => simp [runTrace]
  | cons r rs ih =>
    obtain ⟨t, k⟩ := r
    cases k <;>
      simp [runTrace, regOp, regEntry, step, ObjectPool.add, ObjectPool.add_array, ih]

theorem subperm_append_both {α : Type} {a b c d : List α}
    (h1 : List.Subperm a c) (h2 : List.Subperm b d) :
    List.Subperm (a ++ b) (c ++ d) := by
  obtain ⟨x, px, sx⟩ := h1
  obtain ⟨y, py, sy⟩ := h2
  exact ⟨x ++ y, px.append py, sx.append sy⟩

theorem nodup_of_subperm {α : Type} {l1 l2 : List α} (h : List.Subperm l1 l2) (d : l2.Nodup) :
    l1.Nodup := by
  obtain ⟨x, px, sx⟩ := h
  exact px.nodup (d.sublist sx)

theorem step_subperm (p : ObjectPool) (op : Op) :
    List.Subperm ((step p op).2 ++ (step p op).1.objects) (p.objects ++ registersOf op) := by
  cases op with
  | add t =>
    simp only [step, ObjectPool.add, registersOf, List.nil_append]
    exact List.Subperm.refl _
  | add_array t =>
    simp only [step, ObjectPool.add_array, registersOf, List.nil_append]
    exact List.Subperm.refl _
  | clear =>
    simp only [step, ObjectPool.clear, registersOf, List.append_nil]
    exact List.Subperm.refl _
  | remove_last_one =>
    simp only [step, ObjectPool.remove_last_one, registersOf, List.append_nil]
    cases h : p.objects.getLast? with
    | none => exact List.Subperm.refl _
    | some e =>
      have hne : p.objects ≠ [] := by
        intro hnil
        rw [hnil] at h
        simp at h
      have hlast : p.objects.getLast hne = e := by
        rw [List.getLast?_eq_getLast p.objects hne] at h
        exact Option.some.inj h
      have hdecomp : p.objects.dropLast ++ [e] = p.objects := by
        rw [← hlast]
        exact List.dropLast_append_getLast hne
      have hperm : List.Perm ([e] ++ p.objects.dropLast) p.objects := by
        have hp := @List.perm_append_comm _ [e] p.objects.dropLast
        rw [hdecomp] at hp
        exact hp
      exact hperm.subperm
  | acquire_from xs =>
    simp only [step, ObjectPool.acquire_data, registersOf, List.nil_append]
    exact List.Subperm.refl _
  | surrender =>
    simp only [step, registersOf, List.append_nil]
    exact List.nil_subperm

theorem runTrace_subperm (p : ObjectPool) (ops : List Op) :
    List.Subperm ((runTrace p ops).2 ++ (runTrace p ops).1.objects)
      (p.objects ++ (ops.map registersOf).flatten) := by
  induction ops generalizing p with
  | nil =>
    simp only [runTrace, List.map_nil, List.flatten_nil, List.nil_append, List.append_nil]
    exact List.Subperm.refl _
  | cons op ops ih =>
    simp only [runTrace, List.map_cons, List.flatten_cons]
    have h1 : List.Subperm
        (((step p op).2 ++ (runTrace (step p op).1 ops).2) ++
          (runTrace (step p op).1 ops).1.objects)
        ((step p op).2 ++ ((step p op).1.objects ++ (ops.map registersOf).flatten)) := by
      rw [List.append_assoc]
      exact subperm_append_both (List.Subperm.refl _) (ih (step p op).1)
    have h2 : List.Subperm
        ((step p op).2 ++ ((step p op).1.objects ++ (ops.map registersOf).flatten))
        ((p.objects ++ registersOf op) ++ (ops.map registersOf).flatten) := by
      rw [← List.append_assoc]
      exact subperm_append_both (step_subperm p op) (List.Subperm.refl _)
    have h3 := h1.trans h2
    simpa only [List.append_assoc] using h3

/-! ## Claims -/

/-- Claim C1: `clear` destroys every currently-held Entry exactly once, in insertion
order (front-to-back), using each one's own deletion function, and afterwards the pool
holds zero entries; and for any sequence of registrations followed by `clear`, the
destruction events are exactly the registered entries in registration order and the pool
ends empty. -/
theorem clear_destroys_all_in_order (p : ObjectPool) (regs : List (Nat × DeleteKind)) :
    (p.clear).2 = p.objects ∧ (p.clear).1.objects = [] ∧
      runTrace ⟨[]⟩ (regs.map regOp ++ [Op.clear]) = (⟨[]⟩, regs.map regEntry) := by
  refine ⟨rfl, rfl, ?_⟩
  rw [runTrace_append, runTrace_regOps]
  simp [runTrace, step, ObjectPool.clear]

/-- Claim C2: `acquire_data` moves all of the source's entries into the destination,
appended after the destination's existing entries in the source's order; the source ends
empty; no deletion function is invoked. In particular a destination holding `[y1]`
acquiring a source holding `[x1, x2, x3]` ends holding `[y1, x1, x2, x3]`. -/
theorem acquire_transfers (d s : ObjectPool) (y1 x1 x2 x3 : Element) :
    (d.acquire_data s).1.objects = d.objects ++ s.objects ∧
      (d.acquire_data s).2.1.objects = [] ∧
      (d.acquire_data s).2.2 = [] ∧
      (ObjectPool.mk [y1]).acquire_data ⟨[x1, x2, x3]⟩ =
        (⟨[y1, x1, x2, x3]⟩, ⟨[]⟩, []) :=
  ⟨rfl, rfl, rfl, rfl⟩

/-- Claim C3: `remove_last_one` on a non-empty pool destroys exactly the most recently
added entry and removes it, leaving the earlier entries unchanged; on an empty pool it is
a no-op with no destruction. After adding `a, b, c` in order, two `remove_last_one` calls
destroy `c` then `b`, and `a` is only destroyed by the final `clear`. -/
theorem remove_last_one_spec (p : ObjectPool) (a b c : Nat) :
    (p.objects = [] → p.remove_last_one = (p, [])) ∧
      (∀ es e, p.objects = es ++ [e] → p.remove_last_one = (⟨es⟩, [e])) ∧
      runTrace ⟨[]⟩ [Op.add a, Op.add b, Op.add c,
          Op.remove_last_one, Op.remove_last_one, Op.clear] =
        (⟨[]⟩, [⟨c, DeleteKind.scalar⟩, ⟨b, DeleteKind.scalar⟩, ⟨a, DeleteKind.scalar⟩]) := by
  refine ⟨?_, ?_, ?_⟩
  · intro h
    simp [ObjectPool.remove_last_one, h]
  · intro es e h
    simp [ObjectPool.remove_last_one, h, List.getLast?_concat, List.dropLast_concat]
  · rfl

/-- Claim C3 witness: the empty case and the non-empty case at concrete pools. -/
theorem remove_last_one_spec_witness :
    (ObjectPool.mk []).remove_last_one = (⟨[]⟩, []) ∧
      (ObjectPool.mk [⟨5, DeleteKind.scalar⟩, ⟨7, DeleteKind.array⟩]).remove_last_one =
        (⟨[⟨5, DeleteKind.scalar⟩]⟩, [⟨7, DeleteKind.array⟩]) :=
  ⟨(remove_last_one_spec ⟨[]⟩ 0 0 0).1 rfl,
    (remove_last_one_spec ⟨[⟨5, DeleteKind.scalar⟩, ⟨7, DeleteKind.array⟩]⟩ 0 0 0).2.1
      [⟨5, DeleteKind.scalar⟩] ⟨7, DeleteKind.array⟩ rfl⟩

/-- Claim C4: the destructor body is exactly a `clear` call, so destroying a populated
pool invokes every owned entry's deletion function exactly once (the event list is the
entry list itself) and the destroyed pool holds zero entries. -/
theorem destruct_equiv_clear (p : ObjectPool) :
    p.destruct = p.clear ∧ (p.destruct).2 = p.objects ∧ (p.destruct).1.objects = [] :=
  ⟨rfl, rfl, rfl⟩

/-- Claim C5: over any sequence of operations, if all entries ever owned by the pool are
pairwise distinct, then no entry's deletion function is invoked twice (the event trace
has no duplicates) and every destroyed entry is removed from the sequence (no event entry
remains in the final pool). -/
theorem destroy_once (p : ObjectPool) (ops : List Op)
    (h : (p.objects ++ (ops.map registersOf).flatten).Nodup) :
    (runTrace p ops).2.Nodup ∧
      ∀ e ∈ (runTrace p ops).2, e ∉ (runTrace p ops).1.objects := by
  have hs := runTrace_subperm p ops
  have hn : ((runTrace p ops).2 ++ (runTrace p ops).1.objects).Nodup :=
    nodup_of_subperm hs h
  rw [List.nodup_append] at hn
  exact ⟨hn.1, fun e he hmem => hn.2.2 he hmem⟩

/-- Claim C5 witness: a concrete trace with distinct registrations. -/
theorem destroy_once_witness :
    ((ObjectPool.mk []).objects ++
        (([Op.add 1, Op.add_array 2, Op.remove_last_one, Op.clear].map registersOf)).flatten).Nodup ∧
      ((runTrace ⟨[]⟩ [Op.add 1, Op.add_array 2, Op.remove_last_one, Op.clear]).2.Nodup ∧
        ∀ e ∈ (runTrace ⟨[]⟩ [Op.add 1, Op.add_array 2, Op.remove_last_one, Op.clear]).2,
          e ∉ (runTrace ⟨[]⟩ [Op.add 1, Op.add_array 2, Op.remove_last_one, Op.clear]).1.objects) :=
  ⟨by decide, destroy_once ⟨[]⟩ _ (by decide)⟩

/-- Claim C6: the deletion kind chosen at registration is the one applied at destruction:
an entry registered via `add` is destroyed with the scalar `delete` lambda and one
registered via `add_array` with the array `delete[]` lambda, both under `clear` and under
`remove_last_one`. -/
theorem registered_kind_applied (p : ObjectPool) (t : Nat) :
    ((p.add t).1.clear).2 = p.objects ++ [⟨t, DeleteKind.scalar⟩] ∧
      ((p.add_array t).1.clear).2 = p.objects ++ [⟨t, DeleteKind.array⟩] ∧
      ((p.add t).1.remove_last_one).2 = [⟨t, DeleteKind.scalar⟩] ∧
      ((p.add_array t).1.remove_last_one).2 = [⟨t, DeleteKind.array⟩] := by
  refine ⟨rfl, rfl, ?_, ?_⟩ <;>
    simp [ObjectPool.add, ObjectPool.add_array, ObjectPool.remove_last_one,
      List.getLast?_concat]

/-- Claim C7: both registration forms return the registered pointer unchanged. -/
theorem add_returns_pointer (p : ObjectPool) (t : Nat) :
    (p.add t).2 = t ∧ (p.add_array t).2 = t :=
  ⟨rfl, rfl⟩

/-- Claim C8: `clear` on an empty pool performs zero destruction operations and leaves
the pool empty; hence clearing twice in a row makes the second `clear` a no-op. -/
theorem clear_idempotent (p : ObjectPool) :
    ObjectPool.empty.clear = (ObjectPool.empty, []) ∧
      ((p.clear).1).clear = (⟨[]⟩, []) :=
  ⟨rfl, rfl⟩

/-- Claim C10: acquiring from an empty source leaves the destination's entry list exactly
as it was, the source stays empty, and no deletion function is invoked. -/
theorem acquire_empty_identity (d : ObjectPool) :
    d.acquire_data ObjectPool.empty = (d, ObjectPool.empty, []) := by
  cases d with
  | mk objs => simp [ObjectPool.acquire_data, ObjectPool.empty]

end DorisObjectPool
